import Mathlib

/-!
Verification of the section-boundary resolution engine of `radreportparser`.

The engine (from `radreportparser`: `_pattern.py` / `key.py` / `section.py`,
mirrored verbatim in the repository's dev notebooks) is embedded shallowly:

* Texts and marker fragments are `List Char`.  Marker fragments are
  interpreted as literal substrings matched case-insensitively (the engine
  always compiles its patterns with `re.IGNORECASE`; the `re.RegexFlag`
  parameter is fixed at that default here, and regex metacharacters inside
  fragments are outside the scope of this development).
* `word_boundary = true` reproduces the `\b(...)\b` anchoring of
  `_pattern_keys`: a match must begin and end at a transition between a
  word character (`[A-Za-z0-9_]`) and a non-word position.
* `re.search` / `re.finditer` / `re.findall` become position-by-position
  scans (`searchFrom`, `findAllFrom`, `countFrom`); the fuel argument is the
  number of candidate positions left (a scan over text `t` starts with
  `t.length + 1` positions, `0 .. t.length`, exactly the positions the
  regex engine tries).
* Python exceptions (`ValueError`) become `Except String`; the sentinel
  `(-1, -1)` returned by `_find_start_position` becomes `Option.none`.
* `logging.warning` diagnostics become an explicit returned list of
  `(fragment, count)` pairs.
-/

/-- ASCII lower-casing on code points, the effect of `re.IGNORECASE` on the
ASCII fragments the engine is used with. -/
def lcn (n : Nat) : Nat := if 65 ≤ n ∧ n ≤ 90 then n + 32 else n

/-- Case-insensitive character equality. -/
def ieq (a b : Char) : Bool := decide (lcn a.toNat = lcn b.toNat)

/-- Word character in the sense of regex `\w` (ASCII): letter, digit or underscore. -/
def isWordChar (c : Char) : Bool :=
  decide ((48 ≤ c.toNat ∧ c.toNat ≤ 57) ∨ (65 ≤ c.toNat ∧ c.toNat ≤ 90) ∨
    (97 ≤ c.toNat ∧ c.toNat ≤ 122) ∨ c.toNat = 95)

/-- Whitespace in the sense of Python `str.strip()` (ASCII range). -/
def isSpaceChar (c : Char) : Bool :=
  decide (c = ' ' ∨ c = '\t' ∨ c = '\n' ∨ c = '\r' ∨ c.toNat = 11 ∨ c.toNat = 12)

/-- `litMatch k s`: the fragment `k` is a case-insensitive literal head of `s`. -/
def litMatch : List Char → List Char → Bool
  | [], _ => true
  | _ :: _, [] => false
  | a :: as, b :: bs => ieq a b && litMatch as bs

/-- Is there a word character at offset `i` of `t` (false past the end)? -/
def isWordAt (t : List Char) (i : Nat) : Bool :=
  match t.drop i with
  | [] => false
  | c :: _ => isWordChar c

/-- Is there a word character just before offset `i` of `t`? -/
def isWordBefore (t : List Char) (i : Nat) : Bool :=
  match i with
  | 0 => false
  | j + 1 => isWordAt t j

/-- Regex `\b` at offset `i` of `t`: word-ness changes across the position. -/
def boundaryAt (t : List Char) (i : Nat) : Bool :=
  isWordBefore t i != isWordAt t i

/-- One alternative of the compiled pattern matches at offset `i` of `t`:
the fragment is a literal (case-insensitive) head of `t.drop i`, and when
`wb` is set both ends of the match lie on word boundaries. -/
def keyMatchAt (wb : Bool) (t k : List Char) (i : Nat) : Bool :=
  litMatch k (t.drop i) && (!wb || (boundaryAt t i && boundaryAt t (i + k.length)))

/-- `re.search` of the alternation pattern: try offsets left to right; at an
offset the first fragment (in list order) that matches wins and yields the
span `(i, i + k.length)`.  `fuel` bounds the number of offsets still to try. -/
def searchFrom (wb : Bool) (ks : List (List Char)) (t : List Char) :
    Nat → Nat → Option (Nat × Nat)
  | 0, _ => none
  | fuel + 1, i =>
    if i ≤ t.length then
      match ks.find? (fun k => keyMatchAt wb t k i) with
      | some k => some (i, i + k.length)
      | none => searchFrom wb ks t fuel (i + 1)
    else none

/-- `re.search` over the whole of `t`: offsets `0 .. t.length`. -/
def reSearch (wb : Bool) (ks : List (List Char)) (t : List Char) : Option (Nat × Nat) :=
  searchFrom wb ks t (t.length + 1) 0

/-- `re.finditer`: all non-overlapping spans, scanned left to right; after a
match the scan resumes at its end (one step further for an empty match). -/
def findAllFrom (wb : Bool) (ks : List (List Char)) (t : List Char) :
    Nat → Nat → List (Nat × Nat)
  | 0, _ => []
  | fuel + 1, i =>
    if i ≤ t.length then
      match ks.find? (fun k => keyMatchAt wb t k i) with
      | some k => (i, i + k.length) :: findAllFrom wb ks t fuel (max (i + k.length) (i + 1))
      | none => findAllFrom wb ks t fuel (i + 1)
    else []

/-- All spans of the alternation pattern in `t` (`re.finditer`). -/
def reFinditer (wb : Bool) (ks : List (List Char)) (t : List Char) : List (Nat × Nat) :=
  findAllFrom wb ks t (t.length + 1) 0

/-- `len(re.findall(key, text, re.IGNORECASE))`: number of non-overlapping
case-insensitive occurrences of the raw fragment (no boundary anchoring). -/
def countFrom (k t : List Char) : Nat → Nat → Nat
  | 0, _ => 0
  | fuel + 1, i =>
    if i ≤ t.length then
      if litMatch k (t.drop i) then countFrom k t fuel (max (i + k.length) (i + 1)) + 1
      else countFrom k t fuel (i + 1)
    else 0

/-- Occurrence count of a raw fragment over the whole text. -/
def reFindallCount (k t : List Char) : Nat :=
  countFrom k t (t.length + 1) 0

/-- `_pattern_keys(keys, word_boundary, flags)`: fails on an empty marker
list, otherwise yields the compiled alternation (represented by its data). -/
def _pattern_keys (ks : List (List Char)) (wb : Bool) :
    Except String (List (List Char) × Bool) :=
  if ks.length = 0 then Except.error "keys must have at least one element"
  else Except.ok (ks, wb)

/-- A duplicate-marker diagnostic: the fragment and how often it occurs. -/
abbrev Diag := List Char × Nat

/-- `_find_start_position(text, keys, word_boundary, flags)`.
`none` keys yield span `(0, 0)`; otherwise each fragment occurring twice or
more contributes one diagnostic (`logging.warning`), then the compiled
pattern is searched; Python's `(-1, -1)` sentinel is rendered as `none`. -/
def _find_start_position (t : List Char) (keys : Option (List (List Char)))
    (wb : Bool) : Except String (List Diag × Option (Nat × Nat)) :=
  match keys with
  | none => Except.ok ([], some (0, 0))
  | some ks =>
    let diags := (ks.map (fun k => (k, reFindallCount k t))).filter
      (fun p => decide (2 ≤ p.2))
    match _pattern_keys ks wb with
    | Except.error e => Except.error e
    | Except.ok p => Except.ok (diags, reSearch p.2 p.1 t)

/-- `_find_start_position_all(text, keys, word_boundary, flags)`:
`none` keys yield the single sentinel span `(0, 0)`; otherwise all
non-overlapping spans of the compiled pattern (possibly `[]`). -/
def _find_start_position_all (t : List Char) (keys : Option (List (List Char)))
    (wb : Bool) : Except String (List (Nat × Nat)) :=
  match keys with
  | none => Except.ok [(0, 0)]
  | some ks =>
    match _pattern_keys ks wb with
    | Except.error e => Except.error e
    | Except.ok p => Except.ok (reFinditer p.2 p.1 t)

/-- `_find_end_position_greedy(text, keys, start_pos, word_boundary, flags)`:
search `text[start_pos:]` for the alternation of all end fragments; the
earliest match's start offset (rebased) is the boundary, else `len(text)`. -/
def _find_end_position_greedy (t : List Char) (keys : Option (List (List Char)))
    (start_pos : Nat) (wb : Bool) : Except String Nat :=
  match keys with
  | none => Except.ok t.length
  | some ks =>
    match _pattern_keys ks wb with
    | Except.error e => Except.error e
    | Except.ok p =>
      match reSearch p.2 p.1 (t.drop start_pos) with
      | none => Except.ok t.length
      | some (i, _) => Except.ok (start_pos + i)

/-- The loop body of `_find_end_position_sequential`: try each fragment in
list order as its own single-element pattern against the remainder; the first
fragment that matches anywhere yields its match's start offset. -/
def seqGo (wb : Bool) (su : List Char) : List (List Char) → Option Nat
  | [] => none
  | k :: ks =>
    match reSearch wb [k] su with
    | some (i, _) => some i
    | none => seqGo wb su ks

/-- `_find_end_position_sequential(text, keys, start_pos, word_boundary, flags)`:
fragments are tried in list order; the first that matches in
`text[start_pos:]` decides the boundary, else `len(text)`.  (Each fragment is
compiled alone as a one-element list, so no empty-list error can occur.) -/
def _find_end_position_sequential (t : List Char) (keys : Option (List (List Char)))
    (start_pos : Nat) (wb : Bool) : Except String Nat :=
  match keys with
  | none => Except.ok t.length
  | some ks =>
    match seqGo wb (t.drop start_pos) ks with
    | some i => Except.ok (start_pos + i)
    | none => Except.ok t.length

/-- The configuration object `SectionExtractor` (fields as in `__init__`). -/
structure SectionExtractor where
  start_keys : Option (List (List Char))
  end_keys : Option (List (List Char))
  include_start_keys : Bool
  word_boundary : Bool
  match_strategy : String

/-- `SectionExtractor.__init__`: stores the configuration after validating
that `match_strategy` is one of the two recognised values. -/
def mkSectionExtractor (start_keys end_keys : Option (List (List Char)))
    (include_start_keys word_boundary : Bool) (match_strategy : String) :
    Except String SectionExtractor :=
  if match_strategy = "greedy" ∨ match_strategy = "sequential" then
    Except.ok ⟨start_keys, end_keys, include_start_keys, word_boundary, match_strategy⟩
  else Except.error ("Invalid value: " ++ match_strategy)

/-- Dispatch on the configured strategy, as both `extract` and `extract_all`
do; `wb` is whatever word-boundary argument the call site passes down. -/
def resolveEnd (ex : SectionExtractor) (t : List Char) (pos : Nat) (wb : Bool) :
    Except String Nat :=
  if ex.match_strategy = "greedy" then _find_end_position_greedy t ex.end_keys pos wb
  else _find_end_position_sequential t ex.end_keys pos wb

/-- Python slice `t[a:b]`. -/
def pySlice (t : List Char) (a b : Nat) : List Char := (t.take b).drop a

/-- Python `str.strip()`: drop leading and trailing whitespace. -/
def strip (l : List Char) : List Char :=
  ((l.dropWhile isSpaceChar).reverse.dropWhile isSpaceChar).reverse

/-- `SectionExtractor.extract(text)`.  Note that, as in the source, the start
search and the end search are invoked with the helpers' default
`word_boundary=True` (and default flags), not with the configured
`self.word_boundary`. -/
def extract (ex : SectionExtractor) (t : List Char) : Except String (List Char) :=
  match _find_start_position t ex.start_keys true with
  | Except.error e => Except.error e
  | Except.ok (_, none) => Except.ok []
  | Except.ok (_, some (ss, se)) =>
    match resolveEnd ex t ss true with
    | Except.error e => Except.error e
    | Except.ok eidx =>
      Except.ok (strip (pySlice t (if ex.include_start_keys then ss else se) eidx))

/-- The per-occurrence loop of `SectionExtractor.extract_all`: resolve each
occurrence's end from its own start offset, pySlice, strip, and keep the
section only if non-empty. -/
def extract_allGo (ex : SectionExtractor) (t : List Char) :
    List (Nat × Nat) → Except String (List (List Char))
  | [] => Except.ok []
  | (ss, se) :: rest =>
    match resolveEnd ex t ss ex.word_boundary with
    | Except.error e => Except.error e
    | Except.ok eidx =>
      let sec := strip (pySlice t (if ex.include_start_keys then ss else se) eidx)
      match extract_allGo ex t rest with
      | Except.error e => Except.error e
      | Except.ok tail => Except.ok (if sec.isEmpty then tail else sec :: tail)

/-- `SectionExtractor.extract_all(text)`: all start spans (with the configured
`word_boundary` and flags), then the per-occurrence loop. -/
def extract_all (ex : SectionExtractor) (t : List Char) :
    Except String (List (List Char)) :=
  match _find_start_position_all t ex.start_keys ex.word_boundary with
  | Except.error e => Except.error e
  | Except.ok sps => extract_allGo ex t sps

/-- Modelled from the spec's words (claim C1): an `extract` that resolves both
its start-marker and end-marker matches with the CONFIGURED `word_boundary`
option, for comparison with `extract` as implemented. -/
def extractConfigured (ex : SectionExtractor) (t : List Char) :
    Except String (List Char) :=
  match _find_start_position t ex.start_keys ex.word_boundary with
  | Except.error e => Except.error e
  | Except.ok (_, none) => Except.ok []
  | Except.ok (_, some (ss, se)) =>
    match resolveEnd ex t ss ex.word_boundary with
    | Except.error e => Except.error e
    | Except.ok eidx =>
      Except.ok (strip (pySlice t (if ex.include_start_keys then ss else se) eidx))

/-- The end offset `extract_all` computes for an occurrence starting at `p`
(total by defaulting the unreachable error case to `0`). -/
def endIdxOf (ex : SectionExtractor) (t : List Char) (p : Nat) : Nat :=
  match resolveEnd ex t p ex.word_boundary with
  | Except.ok e => e
  | Except.error _ => 0

/-- The candidate section `extract_all` builds from one start span. -/
def candidateOf (ex : SectionExtractor) (t : List Char) (sp : Nat × Nat) : List Char :=
  strip (pySlice t (if ex.include_start_keys then sp.1 else sp.2) (endIdxOf ex t sp.1))

/-! Concrete configurations and texts used in counterexamples and witnesses. -/

/-- The crafted strategy-comparison text from the spec. -/
def exText : List Char := ("HISTORY: a\nIMPRESSION: b\nFINDINGS: c").toList

/-- Greedy extractor for the crafted text. -/
def exG : SectionExtractor :=
  ⟨some ["HISTORY".toList], some ["FINDINGS".toList, "IMPRESSION".toList], true, false, "greedy"⟩

/-- Sequential extractor for the crafted text. -/
def exS : SectionExtractor :=
  ⟨some ["HISTORY".toList], some ["FINDINGS".toList, "IMPRESSION".toList], true, false, "sequential"⟩

/-- Extractor with `word_boundary = false` (and no end markers). -/
def exW : SectionExtractor := ⟨some ["history".toList], none, true, false, "greedy"⟩

/-- A text whose only `history` occurrence is inside a longer word. -/
def tW : List Char := "clinicalhistory ok".toList

/-- Include-marker variant of the whitespace-leading-marker extractor. -/
def exC5T : SectionExtractor := ⟨some [" H:".toList], none, true, false, "greedy"⟩

/-- Exclude-marker variant of the whitespace-leading-marker extractor. -/
def exC5F : SectionExtractor := ⟨some [" H:".toList], none, false, false, "greedy"⟩

/-- Text on which the marker ` H:` matches with a leading space. -/
def tC5 : List Char := "x H:ab".toList

/-- A successfully constructed extractor whose start-marker list is empty. -/
def exEmpty : SectionExtractor := ⟨some [], none, true, false, "greedy"⟩

/-- Extractor with no start and no end markers. -/
def exNone : SectionExtractor := ⟨none, none, true, false, "greedy"⟩

/-- Extractor whose start markers match nothing in `tNoMatch`. -/
def exNoMatch : SectionExtractor := ⟨some ["xyz".toList], some ["q".toList], true, false, "greedy"⟩

/-- A text containing no `xyz`. -/
def tNoMatch : List Char := "abc def".toList

/-- The multi-occurrence example extractor from the spec (`Human`/`AI`
dialogue), start marker excluded from the output. -/
def ex4 : SectionExtractor :=
  ⟨some ["Human".toList], some ["AI".toList], false, false, "greedy"⟩

/-- The multi-occurrence example text from the spec. -/
def t4 : List Char := "Human: Hi\nAI: Hello\nHuman: Bye\nAI: See ya".toList

/-- A text containing exactly three occurrences of `History`. -/
def t8 : List Char := "History: a\nHistory: b\nHistory: c".toList

/-- A short text with surrounding whitespace. -/
def tC6 : List Char := "  ab  ".toList

/-- `∃ k ∈ ks, k` matches at offset `i` — some alternative of the pattern
matches there. -/
def Found (wb : Bool) (ks : List (List Char)) (t : List Char) (i : Nat) : Prop :=
  ∃ k, k ∈ ks ∧ keyMatchAt wb t k i = true

/-! Lemmas about the scanning primitives. -/

theorem found_iff_find? {wb : Bool} {ks : List (List Char)} {t : List Char} {i : Nat} :
    Found wb ks t i ↔ ks.find? (fun k => keyMatchAt wb t k i) ≠ none := by
  constructor
  · rintro ⟨k, hk, hm⟩ hnone
    rw [List.find?_eq_none] at hnone
    exact hnone k hk hm
  · intro h
    rcases Option.ne_none_iff_exists.mp h with ⟨k, hk⟩
    have hk2 : ks.find? (fun kk => keyMatchAt wb t kk i) = some k := hk.symm
    exact ⟨k, List.mem_of_find?_eq_some hk2, by simpa using List.find?_some hk2⟩

theorem searchFrom_some {wb : Bool} {ks : List (List Char)} {t : List Char} :
    ∀ {fuel i j e}, searchFrom wb ks t fuel i = some (j, e) →
      i ≤ j ∧ j ≤ t.length ∧
      (∃ k, ks.find? (fun k => keyMatchAt wb t k j) = some k ∧ e = j + k.length) ∧
      (∀ m, i ≤ m → m < j → ks.find? (fun k => keyMatchAt wb t k m) = none) := by
  intro fuel
  induction fuel with
  | zero => intro i j e h; simp [searchFrom] at h
  | succ fuel ih =>
    intro i j e h
    rw [searchFrom] at h
    by_cases hi : i ≤ t.length
    · simp only [hi, if_true] at h
      rcases hf : ks.find? (fun k => keyMatchAt wb t k i) with _ | k
      · rw [hf] at h
        rcases ih h with ⟨h1, h2, h3, h4⟩
        refine ⟨by omega, h2, h3, ?_⟩
        intro m him hmj
        rcases Nat.eq_or_lt_of_le him with rfl | hlt
        · exact hf
        · exact h4 m hlt hmj
      · rw [hf] at h
        injection h with h'
        injection h' with hj he
        subst hj; subst he
        exact ⟨Nat.le_refl _, hi, ⟨k, hf, rfl⟩, fun m him hmj => absurd him (by omega)⟩
    · simp [hi] at h

theorem searchFrom_none {wb : Bool} {ks : List (List Char)} {t : List Char} :
    ∀ {fuel i}, t.length + 1 ≤ i + fuel → searchFrom wb ks t fuel i = none →
      ∀ m, i ≤ m → m ≤ t.length → ks.find? (fun k => keyMatchAt wb t k m) = none := by
  intro fuel
  induction fuel with
  | zero => intro i hfu _ m him hm; omega
  | succ fuel ih =>
    intro i hfu h m him hm
    rw [searchFrom] at h
    have hi : i ≤ t.length := by omega
    simp only [hi, if_true] at h
    rcases hf : ks.find? (fun k => keyMatchAt wb t k i) with _ | k
    · rw [hf] at h
      rcases Nat.eq_or_lt_of_le him with rfl | hlt
      · exact hf
      · exact ih (by omega) h m hlt hm
    · rw [hf] at h; exact absurd h (by simp)

theorem reSearch_some {wb : Bool} {ks : List (List Char)} {t : List Char} {j e : Nat}
    (h : reSearch wb ks t = some (j, e)) :
    j ≤ t.length ∧
    (∃ k, ks.find? (fun k => keyMatchAt wb t k j) = some k ∧ e = j + k.length) ∧
    (∀ m, m < j → ks.find? (fun k => keyMatchAt wb t k m) = none) := by
  rcases searchFrom_some h with ⟨_, h2, h3, h4⟩
  exact ⟨h2, h3, fun m hm => h4 m (Nat.zero_le m) hm⟩

theorem reSearch_none {wb : Bool} {ks : List (List Char)} {t : List Char}
    (h : reSearch wb ks t = none) :
    ∀ m, m ≤ t.length → ks.find? (fun k => keyMatchAt wb t k m) = none := by
  intro m hm
  exact searchFrom_none (by omega) h m (Nat.zero_le m) hm

theorem reSearch_of_found {wb : Bool} {ks : List (List Char)} {t : List Char} {i : Nat}
    (hi : i ≤ t.length) (hf : Found wb ks t i) :
    ∃ j e, reSearch wb ks t = some (j, e) := by
  rcases h : reSearch wb ks t with _ | ⟨j, e⟩
  · exact absurd (reSearch_none h i hi) (found_iff_find?.mp hf)
  · exact ⟨j, e, rfl⟩

theorem litMatch_length {k s : List Char} (h : litMatch k s = true) : k.length ≤ s.length := by
  induction k generalizing s with
  | nil => simp
  | cons a as ih =>
    cases s with
    | nil => simp [litMatch] at h
    | cons b bs =>
      simp only [litMatch, Bool.and_eq_true] at h
      simpa [List.length_cons, Nat.succ_le_succ_iff] using ih h.2

theorem keyMatchAt_length {wb : Bool} {t k : List Char} {i : Nat}
    (h : keyMatchAt wb t k i = true) : i + k.length ≤ t.length ∨ t.length ≤ i := by
  simp only [keyMatchAt, Bool.and_eq_true] at h
  have := litMatch_length h.1
  simp only [List.length_drop] at this
  omega

theorem countFrom_pos {k t : List Char} :
    ∀ {fuel i}, 1 ≤ countFrom k t fuel i →
      ∃ j, i ≤ j ∧ j ≤ t.length ∧ litMatch k (t.drop j) = true := by
  intro fuel
  induction fuel with
  | zero => intro i h; simp [countFrom] at h
  | succ fuel ih =>
    intro i h
    rw [countFrom] at h
    by_cases hi : i ≤ t.length
    · simp only [hi, if_true] at h
      by_cases hm : litMatch k (t.drop i) = true
      · exact ⟨i, Nat.le_refl _, hi, hm⟩
      · simp only [hm, if_false] at h
        rcases ih h with ⟨j, hj1, hj2, hj3⟩
        exact ⟨j, by omega, hj2, hj3⟩
    · simp [hi] at h

theorem findAllFrom_eq_nil {wb : Bool} {ks : List (List Char)} {t : List Char}
    {fuel i : Nat}
    (h : ∀ m, i ≤ m → m ≤ t.length → ks.find? (fun k => keyMatchAt wb t k m) = none) :
    findAllFrom wb ks t fuel i = [] := by
  induction fuel generalizing i with
  | zero => rw [findAllFrom]
  | succ fuel ih =>
    rw [findAllFrom]
    by_cases hi : i ≤ t.length
    · simp only [hi, if_true]
      rw [h i (Nat.le_refl _) hi]
      exact ih (fun m him hm => h m (by omega) hm)
    · simp [hi]

/-! Lemmas about `strip` (Python `str.strip()`). -/

/-- Python `str.lstrip()`. -/
def lstrip (l : List Char) : List Char := l.dropWhile isSpaceChar

/-- Python `str.rstrip()`. -/
def rstrip (l : List Char) : List Char := (l.reverse.dropWhile isSpaceChar).reverse

theorem strip_eq_rstrip_lstrip (l : List Char) : strip l = rstrip (lstrip l) := rfl

theorem dropWhile_dropWhile {α : Type} (p : α → Bool) (l : List α) :
    (l.dropWhile p).dropWhile p = l.dropWhile p := by
  induction l with
  | nil => rfl
  | cons c l ih =>
    rw [List.dropWhile_cons]
    by_cases hc : p c = true
    · rw [if_pos hc]; exact ih
    · rw [if_neg hc, List.dropWhile_cons, if_neg hc]

theorem lstrip_lstrip (l : List Char) : lstrip (lstrip l) = lstrip l :=
  dropWhile_dropWhile isSpaceChar l

theorem rstrip_rstrip (l : List Char) : rstrip (rstrip l) = rstrip l := by
  simp only [rstrip, List.reverse_reverse]
  rw [dropWhile_dropWhile]

theorem rstrip_cons (c : Char) (l : List Char) :
    rstrip (c :: l) =
      if (l.reverse.dropWhile isSpaceChar).isEmpty then
        (if isSpaceChar c then [] else [c])
      else c :: rstrip l := by
  have h1 : (c :: l).reverse = l.reverse ++ [c] := by simp
  rw [rstrip, h1, List.dropWhile_append]
  by_cases he : (l.reverse.dropWhile isSpaceChar).isEmpty
  · rw [if_pos he, if_pos he]
    by_cases hc : isSpaceChar c = true
    · rw [if_pos hc]
      simp [List.dropWhile_cons, hc]
    · rw [if_neg hc]
      simp [List.dropWhile_cons, hc]
  · rw [if_neg he, if_neg he]
    simp [rstrip]

theorem lstrip_rstrip_comm (l : List Char) : lstrip (rstrip l) = rstrip (lstrip l) := by
  induction l with
  | nil => rfl
  | cons c l ih =>
    rw [rstrip_cons]
    by_cases hc : isSpaceChar c = true
    · by_cases he : (l.reverse.dropWhile isSpaceChar).isEmpty
      · have hall : ∀ x ∈ l, isSpaceChar x = true := by
          intro x hx
          have := List.dropWhile_eq_nil_iff.mp (List.isEmpty_iff.mp he)
          exact this x (List.mem_reverse.mpr hx)
        have hl : lstrip l = [] := List.dropWhile_eq_nil_iff.mpr hall
        simp only [he, if_true, hc, if_true, lstrip, List.dropWhile_cons, hc]
        show List.dropWhile isSpaceChar [] = rstrip (List.dropWhile isSpaceChar l)
        rw [show List.dropWhile isSpaceChar l = lstrip l from rfl, hl]
        rfl
      · simp only [he, if_false]
        show lstrip (c :: rstrip l) = rstrip (lstrip (c :: l))
        simp only [lstrip, List.dropWhile_cons, hc, if_true]
        exact ih
    · by_cases he : (l.reverse.dropWhile isSpaceChar).isEmpty
      · simp only [he, if_true, hc, if_false]
        show lstrip [c] = rstrip (lstrip (c :: l))
        have h2 : lstrip (c :: l) = c :: l := by
          simp [lstrip, List.dropWhile_cons, hc]
        rw [h2, rstrip_cons]
        simp [he, hc, lstrip, List.dropWhile_cons]
      · simp only [he, if_false]
        have h2 : lstrip (c :: l) = c :: l := by
          simp [lstrip, List.dropWhile_cons, hc]
        rw [h2, rstrip_cons]
        simp only [he, if_false]
        simp [lstrip, List.dropWhile_cons, hc]

theorem strip_rstrip (l : List Char) : strip (rstrip l) = strip l := by
  rw [strip_eq_rstrip_lstrip, strip_eq_rstrip_lstrip, lstrip_rstrip_comm, rstrip_rstrip]

theorem strip_strip (l : List Char) : strip (strip l) = strip l := by
  rw [strip_eq_rstrip_lstrip l, strip_eq_rstrip_lstrip (rstrip (lstrip l)),
    lstrip_rstrip_comm, lstrip_lstrip, rstrip_rstrip]

theorem rstrip_append_of_ne_nil {r : List Char} (m : List Char)
    (h : r.reverse.dropWhile isSpaceChar ≠ []) :
    rstrip (m ++ r) = m ++ rstrip r := by
  rw [rstrip, List.reverse_append, List.dropWhile_append,
    if_neg (by simpa [List.isEmpty_iff] using h)]
  simp [rstrip]

theorem rstrip_append_of_allspace {r : List Char} (m : List Char)
    (h : r.reverse.dropWhile isSpaceChar = []) :
    rstrip (m ++ r) = rstrip m := by
  rw [rstrip, List.reverse_append, List.dropWhile_append,
    if_pos (by simpa [List.isEmpty_iff] using h)]
  rfl

theorem length_dropWhile_le {α : Type} (p : α → Bool) (l : List α) :
    (l.dropWhile p).length ≤ l.length := by
  induction l with
  | nil => simp
  | cons c l ih =>
    rw [List.dropWhile_cons]
    by_cases hc : p c = true
    · rw [if_pos hc]; simp; omega
    · rw [if_neg hc]

theorem length_rstrip_le (l : List Char) : (rstrip l).length ≤ l.length := by
  rw [rstrip]
  simpa using length_dropWhile_le isSpaceChar l.reverse

theorem strip_of_allspace {r : List Char} (h : ∀ c ∈ r, isSpaceChar c = true) :
    strip r = [] := by
  rw [strip_eq_rstrip_lstrip, lstrip, List.dropWhile_eq_nil_iff.mpr h]
  rfl

theorem lstrip_cons_of_not_space {c : Char} (l : List Char) (hc : isSpaceChar c = false) :
    lstrip (c :: l) = c :: l := by
  rw [lstrip, List.dropWhile_cons, if_neg (by simp [hc])]

/-- Pure-list core of claim C5: if the marker substring `m` does not begin
with whitespace, then stripping the extracted section that includes the
marker, dropping the marker's length, and re-stripping, is the same as
stripping the section without the marker. -/
theorem strip_drop_marker (m r : List Char)
    (hm : ∀ c, m.head? = some c → isSpaceChar c = false) :
    strip (List.drop m.length (strip (m ++ r))) = strip r := by
  cases m with
  | nil => simpa using strip_strip r
  | cons c m' =>
    have hc : isSpaceChar c = false := hm c rfl
    have hl : strip ((c :: m') ++ r) = rstrip ((c :: m') ++ r) := by
      rw [strip_eq_rstrip_lstrip, List.cons_append, lstrip_cons_of_not_space _ hc]
    by_cases hr : r.reverse.dropWhile isSpaceChar = []
    · have hall : ∀ x ∈ r, isSpaceChar x = true := by
        intro x hx
        exact List.dropWhile_eq_nil_iff.mp hr x (List.mem_reverse.mpr hx)
      rw [hl, rstrip_append_of_allspace _ hr,
        List.drop_eq_nil_of_le (Nat.le_trans (length_rstrip_le _) (Nat.le_refl _)),
        strip_of_allspace hall]
      rfl
    · rw [hl, rstrip_append_of_ne_nil _ hr, List.drop_left, strip_rstrip]

/-! Lemmas about slicing and the end-resolution dispatcher. -/

theorem length_pySlice (t : List Char) (a b : Nat) :
    (pySlice t a b).length = min b t.length - a := by
  simp [pySlice]

theorem pySlice_eq_nil_of_le {t : List Char} {a b : Nat} (h : b ≤ a) :
    pySlice t a b = [] := by
  apply List.drop_eq_nil_of_le
  simp
  omega

theorem pySlice_to_length (t : List Char) (s : Nat) :
    pySlice t s t.length = t.drop s := by
  rw [pySlice, List.take_length]

theorem pySlice_split {t : List Char} {a b c : Nat} (hab : a ≤ b) (hbc : b ≤ c)
    (hat : a ≤ t.length) :
    pySlice t a c = pySlice t a b ++ pySlice t b c := by
  have h1 : t.take c = t.take b ++ (t.take c).drop b := by
    have h2 : (t.take c).take b = t.take b := by
      rw [List.take_take, Nat.min_eq_left hbc]
    rw [← h2, List.take_append_drop]
  rw [pySlice, h1, List.drop_append_eq_append_drop]
  have h3 : a - (t.take b).length = 0 := by
    simp
    omega
  rw [h3, List.drop_zero]
  rfl

theorem length_strip_le (l : List Char) : (strip l).length ≤ l.length := by
  calc (strip l).length = (rstrip (lstrip l)).length := by rw [strip_eq_rstrip_lstrip]
    _ ≤ (lstrip l).length := length_rstrip_le _
    _ ≤ l.length := length_dropWhile_le _ _

theorem resolveEnd_end_none {ex : SectionExtractor} {t : List Char} {p : Nat} {wbv : Bool}
    (h : ex.end_keys = none) : resolveEnd ex t p wbv = Except.ok t.length := by
  rw [resolveEnd]
  by_cases hs : ex.match_strategy = "greedy"
  · rw [if_pos hs, h]; rfl
  · rw [if_neg hs, h]; rfl

theorem resolveEnd_ok {ex : SectionExtractor} {t : List Char} {p : Nat} {wbv : Bool}
    (he : ex.end_keys ≠ some []) : ∃ e, resolveEnd ex t p wbv = Except.ok e := by
  rw [resolveEnd]
  by_cases hs : ex.match_strategy = "greedy"
  · rw [if_pos hs]
    rcases hk : ex.end_keys with _ | ks
    · exact ⟨t.length, rfl⟩
    · have hks : ks ≠ [] := by rintro rfl; exact he hk
      have hp : _pattern_keys ks wbv = Except.ok (ks, wbv) := by
        rw [_pattern_keys, if_neg (by simpa using hks)]
      rcases hr : reSearch wbv ks (t.drop p) with _ | ⟨i, e⟩
      · exact ⟨t.length, by simp [_find_end_position_greedy, hp, hr]⟩
      · exact ⟨p + i, by simp [_find_end_position_greedy, hp, hr]⟩
  · rw [if_neg hs]
    rcases hk : ex.end_keys with _ | ks
    · exact ⟨t.length, rfl⟩
    · rcases hr : seqGo wbv (t.drop p) ks with _ | i
      · exact ⟨t.length, by simp [_find_end_position_sequential, hr]⟩
      · exact ⟨p + i, by simp [_find_end_position_sequential, hr]⟩

theorem extract_allGo_eq {ex : SectionExtractor} {t : List Char}
    (he : ex.end_keys ≠ some []) :
    ∀ sps, extract_allGo ex t sps =
      Except.ok ((sps.map (candidateOf ex t)).filter (fun s => !s.isEmpty)) := by
  intro sps
  induction sps with
  | nil => rfl
  | cons sp rest ih =>
    rcases sp with ⟨ss, se⟩
    rcases (@resolveEnd_ok ex t ss ex.word_boundary he) with ⟨e, hre⟩
    have hcand : candidateOf ex t (ss, se)
        = strip (pySlice t (if ex.include_start_keys then ss else se) e) := by
      rw [candidateOf, endIdxOf, hre]
    by_cases hsec : (strip (pySlice t (if ex.include_start_keys then ss else se) e)).isEmpty
    · simp [extract_allGo, hre, ih, List.filter_cons, hcand, hsec]
    · simp [extract_allGo, hre, ih, List.filter_cons, hcand, hsec]

/-! Bridges for single-fragment patterns and the sequential loop. -/

theorem keyMatchAt_false_wb {t k : List Char} {i : Nat} :
    keyMatchAt false t k i = litMatch k (t.drop i) := by
  simp [keyMatchAt]

theorem reSearch_single_none_iff {wb : Bool} {k : List Char} {su : List Char} :
    reSearch wb [k] su = none ↔ ∀ i, i ≤ su.length → keyMatchAt wb su k i = false := by
  constructor
  · intro h i hi
    have := reSearch_none h i hi
    rw [List.find?_eq_none] at this
    simpa using this k (by simp)
  · intro h
    rcases hres : reSearch wb [k] su with _ | ⟨j, e⟩
    · rfl
    · exfalso
      rcases reSearch_some hres with ⟨hj, ⟨k2, hfk, _⟩, _⟩
      have hk2 : k2 = k := by simpa using List.mem_of_find?_eq_some hfk
      have hp : keyMatchAt wb su k2 j = true := by simpa using List.find?_some hfk
      rw [hk2] at hp
      rw [h j hj] at hp
      exact absurd hp (by simp)

theorem reSearch_single_some {wb : Bool} {k su : List Char} {j e : Nat}
    (h : reSearch wb [k] su = some (j, e)) :
    j ≤ su.length ∧ e = j + k.length ∧ keyMatchAt wb su k j = true ∧
      ∀ m, m < j → keyMatchAt wb su k m = false := by
  rcases reSearch_some h with ⟨hj, ⟨k2, hfk, he⟩, hmin⟩
  have hk2 : k2 = k := by simpa using List.mem_of_find?_eq_some hfk
  rw [hk2] at hfk he
  have hp : keyMatchAt wb su k j = true := by simpa using List.find?_some hfk
  refine ⟨hj, he, hp, ?_⟩
  intro m hm
  have h3 := hmin m hm
  rw [List.find?_eq_none] at h3
  simpa using h3 k (by simp)

theorem seqGo_eq_none_iff {wb : Bool} {su : List Char} {ks : List (List Char)} :
    seqGo wb su ks = none ↔ ∀ k, k ∈ ks → reSearch wb [k] su = none := by
  induction ks with
  | nil => simp [seqGo]
  | cons k ks ih =>
    rw [seqGo]
    rcases hres : reSearch wb [k] su with _ | ⟨j, e⟩
    · simp only [List.mem_cons]
      constructor
      · intro h k2 hk2
        rcases hk2 with rfl | hk2
        · exact hres
        · exact ih.mp h k2 hk2
      · intro h
        exact ih.mpr (fun k2 hk2 => h k2 (Or.inr hk2))
    · constructor
      · intro h; exact absurd h (by simp)
      · intro h
        have := h k (by simp)
        rw [hres] at this
        exact absurd this (by simp)

theorem seqGo_append_of_none {wb : Bool} {su : List Char} {pre rest : List (List Char)}
    (h : ∀ k, k ∈ pre → reSearch wb [k] su = none) :
    seqGo wb su (pre ++ rest) = seqGo wb su rest := by
  induction pre with
  | nil => rfl
  | cons k pre ih =>
    rw [List.cons_append, seqGo, h k (by simp)]
    exact ih (fun k2 hk2 => h k2 (by simp [hk2]))

/-- Any start span returned by `_find_start_position` is well-formed: it is a
non-negative-width span ending within the text. -/
theorem start_span_bounds {t : List Char} {keys : Option (List (List Char))} {wb : Bool}
    {d : List Diag} {ss se : Nat}
    (h : _find_start_position t keys wb = Except.ok (d, some (ss, se))) :
    ss ≤ se ∧ se ≤ t.length := by
  rcases keys with _ | ks
  · have h2 := h
    simp only [_find_start_position, Except.ok.injEq, Prod.mk.injEq,
      Option.some.injEq] at h2
    obtain ⟨-, h3, h4⟩ := h2
    omega
  · by_cases hks : ks.length = 0
    · rw [_find_start_position] at h
      rw [_pattern_keys, if_pos hks] at h
      exact absurd h (by simp)
    · have hp : _pattern_keys ks wb = Except.ok (ks, wb) := by
        rw [_pattern_keys, if_neg hks]
      rw [_find_start_position] at h
      rw [hp] at h
      have h2 : reSearch wb ks t = some (ss, se) := by
        have := congrArg (fun x => match x with
          | Except.ok (p : List Diag × Option (Nat × Nat)) => p.2
          | Except.error _ => none) h
        simpa using this
      rcases reSearch_some h2 with ⟨hj, ⟨k, hfk, he⟩, _⟩
      have hlit : litMatch k (t.drop ss) = true := by
        have := List.find?_some hfk
        simp only [keyMatchAt, Bool.and_eq_true] at this
        exact this.1
      have := litMatch_length hlit
      simp only [List.length_drop] at this
      omega

/-! The claim theorems. -/

/-- Claim C6: `extract` on an extractor configured with `start_keys = none`
begins the returned section at offset 0 of the text (the start span is
`(0, 0)`), and `extract` on an extractor configured with `end_keys = none`
extends the returned section to `len(text)`; in both cases the result is
then only whitespace-trimmed. -/
theorem claim_C6 (ex : SectionExtractor) (t : List Char) :
    (ex.start_keys = none →
      (∀ wbv, _find_start_position t none wbv = Except.ok ([], some (0, 0))) ∧
      extract ex t
        = Except.map (fun e => strip (pySlice t 0 e)) (resolveEnd ex t 0 true)) ∧
    (ex.end_keys = none →
      (∀ p wbv, resolveEnd ex t p wbv = Except.ok t.length) ∧
      (∀ d ss se, _find_start_position t ex.start_keys true = Except.ok (d, some (ss, se)) →
        extract ex t
          = Except.ok (strip (t.drop (if ex.include_start_keys then ss else se))))) := by
  constructor
  · intro hs
    refine ⟨fun wbv => rfl, ?_⟩
    rcases hre : resolveEnd ex t 0 true with err | e
    · simp [extract, hs, _find_start_position, hre, Except.map]
    · simp [extract, hs, _find_start_position, hre, Except.map, ite_self]
  · intro he
    refine ⟨fun p wbv => resolveEnd_end_none he, ?_⟩
    intro d ss se h1
    have hre : resolveEnd ex t ss true = Except.ok t.length := resolveEnd_end_none he
    simp [extract, h1, hre, pySlice_to_length]

/-- Witness for claim C6 at a concrete extractor (no start markers, no end
markers) and text. -/
theorem claim_C6_witness :
    _find_start_position tC6 none true = Except.ok ([], some (0, 0)) ∧
    extract exNone tC6
      = Except.map (fun e => strip (pySlice tC6 0 e)) (resolveEnd exNone tC6 0 true) ∧
    resolveEnd exNone tC6 0 true = Except.ok tC6.length ∧
    extract exNone tC6
      = Except.ok (strip (tC6.drop (if exNone.include_start_keys then 0 else 0))) :=
  ⟨((claim_C6 exNone tC6).1 rfl).1 true, ((claim_C6 exNone tC6).1 rfl).2,
   ((claim_C6 exNone tC6).2 rfl).1 0 true, ((claim_C6 exNone tC6).2 rfl).2 [] 0 0 rfl⟩

/-- Claim C7: when no fragment of the (non-null, non-empty) start-marker list
occurs anywhere in the text, `extract` returns the empty string and
`extract_all` returns the empty sequence; neither raises an error. -/
theorem claim_C7 (ex : SectionExtractor) (t : List Char) (ks : List (List Char))
    (hsk : ex.start_keys = some ks) (hne : ks ≠ [])
    (hnm : ∀ i, i < t.length + 1 → ∀ k, k ∈ ks → litMatch k (t.drop i) = false) :
    extract ex t = Except.ok [] ∧ extract_all ex t = Except.ok [] := by
  have hfind : ∀ (wbv : Bool) (i : Nat), i ≤ t.length →
      ks.find? (fun k => keyMatchAt wbv t k i) = none := by
    intro wbv i hi
    rw [List.find?_eq_none]
    intro k hk
    simp [keyMatchAt, hnm i (by omega) k hk]
  have hsearch : ∀ wbv, reSearch wbv ks t = none := by
    intro wbv
    rcases h : reSearch wbv ks t with _ | ⟨j, e⟩
    · rfl
    · exfalso
      rcases reSearch_some h with ⟨hj, ⟨k, hfk, _⟩, _⟩
      rw [hfind wbv j hj] at hfk
      exact absurd hfk (by simp)
  have hp : ∀ wbv, _pattern_keys ks wbv = Except.ok (ks, wbv) := by
    intro wbv
    rw [_pattern_keys, if_neg (by simpa using hne)]
  have hfa : ∀ wbv, reFinditer wbv ks t = [] := by
    intro wbv
    exact findAllFrom_eq_nil (fun m _ hm => hfind wbv m hm)
  constructor
  · simp [extract, hsk, _find_start_position, hp, hsearch]
  · simp [extract_all, hsk, _find_start_position_all, hp, hfa, extract_allGo]

/-- Witness for claim C7 at a concrete extractor and text with no match. -/
theorem claim_C7_witness :
    (["xyz".toList] : List (List Char)) ≠ [] ∧
    (∀ i, i < tNoMatch.length + 1 → ∀ k, k ∈ (["xyz".toList] : List (List Char)) →
      litMatch k (tNoMatch.drop i) = false) ∧
    extract exNoMatch tNoMatch = Except.ok [] ∧
    extract_all exNoMatch tNoMatch = Except.ok [] := by
  refine ⟨by decide, by decide, ?_, ?_⟩
  · exact (claim_C7 exNoMatch tNoMatch ["xyz".toList] rfl (by decide) (by decide)).1
  · exact (claim_C7 exNoMatch tNoMatch ["xyz".toList] rfl (by decide) (by decide)).2

/-- Claim C1 counterexample: an extractor constructed with
`word_boundary = false` and start marker `history` does anchor its start
match during `extract` — on `clinicalhistory ok` the implemented `extract`
finds nothing (returns the empty string), while the spec-described behaviour
(raw substring matching, `extractConfigured`) would return `history ok`. -/
theorem claim_C1_counterexample :
    exW.word_boundary = false ∧
    extract exW tW = Except.ok [] ∧
    extractConfigured exW tW = Except.ok ("history ok".toList) ∧
    extract exW tW ≠ extractConfigured exW tW := by
  refine ⟨rfl, rfl, rfl, ?_⟩
  intro h
  rw [show extract exW tW = Except.ok [] from rfl,
    show extractConfigured exW tW = Except.ok ("history ok".toList) from rfl] at h
  injection h with h2
  exact absurd h2 (by decide)

/-- Claim C1 (amended): `extract_all` resolves its start and end matches with
the configured `word_boundary` option, but `extract` ignores the configured
option entirely: it behaves identically for every configured value and always
resolves both its start and end matches with word-boundary anchoring enabled
(the helpers' defaults).  On `tW`, `extract_all` with the configured
`word_boundary = false` finds the raw in-word match. -/
theorem claim_C1_amended :
    (∀ (ex : SectionExtractor) (t : List Char) (b : Bool),
      extract { ex with word_boundary := b } t = extract ex t ∧
      extract ex t = extractConfigured { ex with word_boundary := true } t) ∧
    extract_all exW tW = Except.ok ["history ok".toList] :=
  ⟨fun _ _ _ => ⟨rfl, rfl⟩, rfl⟩

/-- Claim C9 counterexample: an extractor whose start-marker list is the
empty (non-null) list is constructed without any error, yet both `extract`
and `extract_all` then fail with the empty-marker-list configuration error —
so configuration errors are not raised only at configuration time, and a
validly constructed extractor can raise during extraction. -/
theorem claim_C9_counterexample :
    mkSectionExtractor (some []) none true false "greedy" = Except.ok exEmpty ∧
    extract exEmpty ("x".toList) = Except.error "keys must have at least one element" ∧
    extract_all exEmpty ("x".toList) = Except.error "keys must have at least one element" :=
  ⟨rfl, rfl, rfl⟩

/-- Claim C9 (amended): an unrecognised `match_strategy` fails at
construction time; compiling a pattern from an empty (non-null) marker list
fails with the configuration error — but this happens at pattern-compile
time during extraction, not at construction; an extractor whose marker lists
are null or non-empty raises neither error during `extract` or
`extract_all`. -/
theorem claim_C9_amended :
    (∀ (sk ek : Option (List (List Char))) (isk wbv : Bool) (s : String),
      s ≠ "greedy" → s ≠ "sequential" →
      mkSectionExtractor sk ek isk wbv s = Except.error ("Invalid value: " ++ s)) ∧
    (∀ wbv, _pattern_keys [] wbv = Except.error "keys must have at least one element") ∧
    (∀ (ex : SectionExtractor) (t : List Char),
      ex.start_keys ≠ some [] → ex.end_keys ≠ some [] →
      (∃ v, extract ex t = Except.ok v) ∧ (∃ v, extract_all ex t = Except.ok v)) := by
  refine ⟨?_, fun wbv => rfl, ?_⟩
  · intro sk ek isk wbv s h1 h2
    rw [mkSectionExtractor, if_neg]
    rintro (h | h)
    · exact h1 h
    · exact h2 h
  · intro ex t hs he
    constructor
    · rcases hk : ex.start_keys with _ | ks
      · rcases hre : resolveEnd ex t 0 true with err | e
        · rcases (@resolveEnd_ok ex t 0 true he) with ⟨e, hre2⟩
          rw [hre2] at hre
          exact absurd hre (by simp)
        · exact ⟨strip (pySlice t 0 e),
            by simp [extract, hk, _find_start_position, hre, ite_self]⟩
      · have hne : ks ≠ [] := by rintro rfl; exact hs hk
        have hp : _pattern_keys ks true = Except.ok (ks, true) := by
          rw [_pattern_keys, if_neg (by simpa using hne)]
        rcases hres : reSearch true ks t with _ | ⟨ss, se⟩
        · exact ⟨[], by simp [extract, hk, _find_start_position, hp, hres]⟩
        · rcases (@resolveEnd_ok ex t ss true he) with ⟨e, hre⟩
          exact ⟨strip (pySlice t (if ex.include_start_keys then ss else se) e),
            by simp [extract, hk, _find_start_position, hp, hres, hre]⟩
    · rcases hk : ex.start_keys with _ | ks
      · exact ⟨(([((0 : Nat), (0 : Nat))]).map (candidateOf ex t)).filter
            (fun s => !s.isEmpty),
          by simp [extract_all, hk, _find_start_position_all, extract_allGo_eq he]⟩
      · have hne : ks ≠ [] := by rintro rfl; exact hs hk
        have hp : _pattern_keys ks ex.word_boundary
            = Except.ok (ks, ex.word_boundary) := by
          rw [_pattern_keys, if_neg (by simpa using hne)]
        exact ⟨((reFinditer ex.word_boundary ks t).map (candidateOf ex t)).filter
            (fun s => !s.isEmpty),
          by simp [extract_all, hk, _find_start_position_all, hp,
            extract_allGo_eq he]⟩

/-- Witness for the amended claim C9 at concrete inputs: a bogus strategy is
rejected at construction, and a well-formed extractor extracts without
error. -/
theorem claim_C9_witness :
    mkSectionExtractor none none true false "bogus"
      = Except.error ("Invalid value: " ++ "bogus") ∧
    (∃ v, extract exNoMatch tNoMatch = Except.ok v) ∧
    (∃ v, extract_all exNoMatch tNoMatch = Except.ok v) :=
  ⟨claim_C9_amended.1 none none true false "bogus" (by decide) (by decide),
   (claim_C9_amended.2.2 exNoMatch tNoMatch (by simp [exNoMatch]) (by simp [exNoMatch])).1,
   (claim_C9_amended.2.2 exNoMatch tNoMatch (by simp [exNoMatch]) (by simp [exNoMatch])).2⟩

/-- Claim C4: `extract_all` produces one candidate per start-marker
occurrence found by `_find_start_position_all`, resolving each occurrence's
end boundary independently from that occurrence's own start offset (via
`candidateOf`, which slices and trims as `extract` does); candidates that
trim to the empty string are dropped, so every returned string is
non-empty. -/
theorem claim_C4 (ex : SectionExtractor) (t : List Char)
    (hs : ex.start_keys ≠ some []) (he : ex.end_keys ≠ some []) :
    ∃ sps, _find_start_position_all t ex.start_keys ex.word_boundary = Except.ok sps ∧
      extract_all ex t
        = Except.ok ((sps.map (candidateOf ex t)).filter (fun s => !s.isEmpty)) ∧
      ∀ s, s ∈ (sps.map (candidateOf ex t)).filter (fun s => !s.isEmpty) → s ≠ [] := by
  have hnonempty : ∀ (sps : List (Nat × Nat)) (s : List Char),
      s ∈ (sps.map (candidateOf ex t)).filter (fun s => !s.isEmpty) → s ≠ [] := by
    intro sps s hmem hnil
    rw [List.mem_filter] at hmem
    rw [hnil] at hmem
    simp at hmem
  rcases hk : ex.start_keys with _ | ks
  · refine ⟨[(0, 0)], rfl, ?_, hnonempty _⟩
    simp [extract_all, hk, _find_start_position_all, extract_allGo_eq he]
  · have hne : ks ≠ [] := by rintro rfl; exact hs hk
    have hp : _pattern_keys ks ex.word_boundary = Except.ok (ks, ex.word_boundary) := by
      rw [_pattern_keys, if_neg (by simpa using hne)]
    refine ⟨reFinditer ex.word_boundary ks t, ?_, ?_, hnonempty _⟩
    · simp [_find_start_position_all, hp]
    · simp [extract_all, hk, _find_start_position_all, hp, extract_allGo_eq he]

/-- Witness for claim C4 at the spec's `Human`/`AI` example, whose result is
the two non-empty candidates. -/
theorem claim_C4_witness :
    ex4.start_keys ≠ some [] ∧ ex4.end_keys ≠ some [] ∧
    (∃ sps, _find_start_position_all t4 ex4.start_keys ex4.word_boundary = Except.ok sps ∧
      extract_all ex4 t4
        = Except.ok ((sps.map (candidateOf ex4 t4)).filter (fun s => !s.isEmpty)) ∧
      ∀ s, s ∈ (sps.map (candidateOf ex4 t4)).filter (fun s => !s.isEmpty) → s ≠ []) ∧
    extract_all ex4 t4 = Except.ok [": Hi".toList, ": Bye".toList] := by
  refine ⟨by simp [ex4], by simp [ex4],
    claim_C4 ex4 t4 (by simp [ex4]) (by simp [ex4]), by rfl⟩

/-- Claim C8: on a text containing exactly three (case-insensitive,
non-overlapping) occurrences of the single start fragment, the start finder
emits exactly one duplicate-marker diagnostic noting 3 occurrences, does not
raise, and still returns only the span of the first pattern match — the
diagnostic never alters the result, which equals the diagnostic-free search;
in raw-substring mode (`wb = false`) the returned span starts at the first
occurrence of the fragment. -/
theorem claim_C8 (t k : List Char) (wb : Bool) (hc : reFindallCount k t = 3) :
    ∃ d res, _find_start_position t (some [k]) wb = Except.ok (d, res) ∧
      d = [(k, 3)] ∧
      res = reSearch wb [k] t ∧
      (∀ i e, res = some (i, e) →
        e = i + k.length ∧ keyMatchAt wb t k i = true ∧
        ∀ j, j < i → keyMatchAt wb t k j = false) ∧
      (wb = false →
        ∃ i, res = some (i, i + k.length) ∧ litMatch k (t.drop i) = true ∧
          ∀ j, j < i → litMatch k (t.drop j) = false) := by
  have hp : _pattern_keys [k] wb = Except.ok ([k], wb) := by
    rw [_pattern_keys, if_neg (by simp)]
  refine ⟨[(k, 3)], reSearch wb [k] t, ?_, rfl, rfl, ?_, ?_⟩
  · simp [_find_start_position, hp, hc]
  · intro i e hres
    rcases reSearch_single_some hres with ⟨_, he, hm, hmin⟩
    exact ⟨he, hm, hmin⟩
  · rintro rfl
    have h1 : 1 ≤ reFindallCount k t := by omega
    rcases countFrom_pos h1 with ⟨j, _, hj2, hj3⟩
    have hfd : Found false [k] t j := ⟨k, by simp, by simp [keyMatchAt_false_wb, hj3]⟩
    rcases reSearch_of_found hj2 hfd with ⟨i, e, hres⟩
    rcases reSearch_single_some hres with ⟨hi, he, hm, hmin⟩
    subst he
    refine ⟨i, hres, ?_, ?_⟩
    · rw [keyMatchAt_false_wb] at hm
      exact hm
    · intro j2 hj2x
      have := hmin j2 hj2x
      rw [keyMatchAt_false_wb] at this
      exact this

/-- Witness for claim C8 at a concrete text with exactly three occurrences
of `History`. -/
theorem claim_C8_witness :
    reFindallCount ("History".toList) t8 = 3 ∧
    (∃ d res, _find_start_position t8 (some ["History".toList]) false
        = Except.ok (d, res) ∧
      d = [("History".toList, 3)] ∧
      res = reSearch false ["History".toList] t8 ∧
      (∀ i e, res = some (i, e) →
        e = i + ("History".toList).length ∧
        keyMatchAt false t8 ("History".toList) i = true ∧
        ∀ j, j < i → keyMatchAt false t8 ("History".toList) j = false) ∧
      (false = false →
        ∃ i, res = some (i, i + ("History".toList).length) ∧
          litMatch ("History".toList) (t8.drop i) = true ∧
          ∀ j, j < i → litMatch ("History".toList) (t8.drop j) = false)) :=
  ⟨by rfl, claim_C8 t8 ("History".toList) false (by rfl)⟩

theorem reSearch_not_found {wb : Bool} {ks : List (List Char)} {su : List Char}
    (h : reSearch wb ks su = none) :
    ∀ i, i ≤ su.length → ¬ Found wb ks su i := by
  intro i hi hf
  exact (found_iff_find?.mp hf) (reSearch_none h i hi)

theorem reSearch_found {wb : Bool} {ks : List (List Char)} {su : List Char} {j e : Nat}
    (h : reSearch wb ks su = some (j, e)) :
    j ≤ su.length ∧ Found wb ks su j ∧ ∀ m, m < j → ¬ Found wb ks su m := by
  rcases reSearch_some h with ⟨hj, ⟨k, hfk, _⟩, hmin⟩
  refine ⟨hj, ⟨k, List.mem_of_find?_eq_some hfk, by simpa using List.find?_some hfk⟩, ?_⟩
  intro m hm hf
  exact (found_iff_find?.mp hf) (hmin m hm)

/-- Claim C2: for a non-null (and, per the spec's data-model invariant,
non-empty) end-marker list and `fromPos ≤ len(text)`, the greedy end finder
returns `fromPos` plus the offset of the earliest match of any end marker in
`text[fromPos:]` — whichever marker matches first wins, and the result is
invariant under permutation of the marker list — and it returns `len(text)`
when the marker list is null or no marker matches. -/
theorem claim_C2 (t : List Char) (ks : List (List Char)) (fromPos : Nat) (wb : Bool)
    (hks : ks ≠ []) (_hfp : fromPos ≤ t.length) :
    _find_end_position_greedy t none fromPos wb = Except.ok t.length ∧
    ∃ r, _find_end_position_greedy t (some ks) fromPos wb = Except.ok r ∧
      ((∃ i, i ≤ (t.drop fromPos).length ∧ Found wb ks (t.drop fromPos) i) →
        ∃ i, Found wb ks (t.drop fromPos) i ∧
          (∀ j, j < i → ¬ Found wb ks (t.drop fromPos) j) ∧ r = fromPos + i) ∧
      ((∀ i, i ≤ (t.drop fromPos).length → ¬ Found wb ks (t.drop fromPos) i) →
        r = t.length) ∧
      (∀ ks2, List.Perm ks ks2 →
        _find_end_position_greedy t (some ks2) fromPos wb = Except.ok r) := by
  have hp : _pattern_keys ks wb = Except.ok (ks, wb) := by
    rw [_pattern_keys, if_neg (by simpa using hks)]
  have hfound_iff : ∀ (ks2 : List (List Char)), List.Perm ks ks2 → ∀ i,
      (Found wb ks (t.drop fromPos) i ↔ Found wb ks2 (t.drop fromPos) i) := by
    intro ks2 hperm i
    constructor <;> rintro ⟨k, hk, hm⟩
    · exact ⟨k, hperm.mem_iff.mp hk, hm⟩
    · exact ⟨k, hperm.mem_iff.mpr hk, hm⟩
  have hlen2 : ∀ (ks2 : List (List Char)), List.Perm ks ks2 →
      _pattern_keys ks2 wb = Except.ok (ks2, wb) := by
    intro ks2 hperm
    have hks2 : ks2.length ≠ 0 := by
      rw [← hperm.length_eq]
      simpa using hks
    rw [_pattern_keys, if_neg hks2]
  refine ⟨rfl, ?_⟩
  rcases hres : reSearch wb ks (t.drop fromPos) with _ | ⟨i, e⟩
  · refine ⟨t.length, by simp [_find_end_position_greedy, hp, hres], ?_,
      fun _ => rfl, ?_⟩
    · rintro ⟨i, hi, hf⟩
      exact absurd hf (reSearch_not_found hres i hi)
    · intro ks2 hperm
      rcases hres2 : reSearch wb ks2 (t.drop fromPos) with _ | ⟨i2, e2⟩
      · simp [_find_end_position_greedy, hlen2 ks2 hperm, hres2]
      · exfalso
        rcases reSearch_found hres2 with ⟨hi2, hf2, _⟩
        exact (reSearch_not_found hres i2 hi2) ((hfound_iff ks2 hperm i2).mpr hf2)
  · rcases reSearch_found hres with ⟨hi, hf, hmin⟩
    refine ⟨fromPos + i, by simp [_find_end_position_greedy, hp, hres], ?_, ?_, ?_⟩
    · intro _
      exact ⟨i, hf, hmin, rfl⟩
    · intro hall
      exact absurd hf (hall i hi)
    · intro ks2 hperm
      rcases hres2 : reSearch wb ks2 (t.drop fromPos) with _ | ⟨i2, e2⟩
      · exfalso
        exact (reSearch_not_found hres2 i hi) ((hfound_iff ks2 hperm i).mp hf)
      · rcases reSearch_found hres2 with ⟨hi2, hf2, hmin2⟩
        have h1 : ¬ i2 < i := fun hlt => (hmin i2 hlt) ((hfound_iff ks2 hperm i2).mpr hf2)
        have h2 : ¬ i < i2 := fun hlt => (hmin2 i hlt) ((hfound_iff ks2 hperm i).mp hf)
        have h3 : i2 = i := by omega
        subst h3
        simp [_find_end_position_greedy, hlen2 ks2 hperm, hres2]

/-- Witness for claim C2 at the crafted text, whose earliest end-marker
match is the `IMPRESSION` occurrence. -/
theorem claim_C2_witness :
    (["FINDINGS".toList, "IMPRESSION".toList] : List (List Char)) ≠ [] ∧
    (0 : Nat) ≤ exText.length ∧
    (_find_end_position_greedy exText none 0 true = Except.ok exText.length ∧
    ∃ r, _find_end_position_greedy exText
        (some ["FINDINGS".toList, "IMPRESSION".toList]) 0 true = Except.ok r ∧
      ((∃ i, i ≤ (exText.drop 0).length ∧
          Found true ["FINDINGS".toList, "IMPRESSION".toList] (exText.drop 0) i) →
        ∃ i, Found true ["FINDINGS".toList, "IMPRESSION".toList] (exText.drop 0) i ∧
          (∀ j, j < i →
            ¬ Found true ["FINDINGS".toList, "IMPRESSION".toList] (exText.drop 0) j) ∧
          r = 0 + i) ∧
      ((∀ i, i ≤ (exText.drop 0).length →
          ¬ Found true ["FINDINGS".toList, "IMPRESSION".toList] (exText.drop 0) i) →
        r = exText.length) ∧
      (∀ ks2, List.Perm ["FINDINGS".toList, "IMPRESSION".toList] ks2 →
        _find_end_position_greedy exText (some ks2) 0 true = Except.ok r)) :=
  ⟨by decide, by decide,
   claim_C2 exText ["FINDINGS".toList, "IMPRESSION".toList] 0 true
     (by decide) (by decide)⟩

/-- Claim C3: the sequential end finder tries end markers in their list
order and returns `fromPos` plus the first match offset of the first marker
that matches anywhere in `text[fromPos:]` — later markers are never
considered once an earlier-listed marker matches — and returns `len(text)`
when the list is null or no marker matches.  On the crafted text, greedy
terminates the section at the `IMPRESSION` occurrence (offset 11) while
sequential terminates it at the `FINDINGS` occurrence (offset 25). -/
theorem claim_C3 :
    (∀ (t : List Char) (ks : List (List Char)) (fromPos : Nat) (wb : Bool),
      _find_end_position_sequential t none fromPos wb = Except.ok t.length ∧
      ∃ r, _find_end_position_sequential t (some ks) fromPos wb = Except.ok r ∧
        (∀ pre k post, ks = pre ++ k :: post →
          (∀ k2, k2 ∈ pre → ∀ i, i ≤ (t.drop fromPos).length →
            keyMatchAt wb (t.drop fromPos) k2 i = false) →
          ∀ i0, i0 ≤ (t.drop fromPos).length →
            keyMatchAt wb (t.drop fromPos) k i0 = true →
          ∃ i, keyMatchAt wb (t.drop fromPos) k i = true ∧
            (∀ j, j < i → keyMatchAt wb (t.drop fromPos) k j = false) ∧
            r = fromPos + i) ∧
        ((∀ k2, k2 ∈ ks → ∀ i, i ≤ (t.drop fromPos).length →
            keyMatchAt wb (t.drop fromPos) k2 i = false) →
          r = t.length)) ∧
    _find_end_position_greedy exText
      (some ["FINDINGS".toList, "IMPRESSION".toList]) 0 true = Except.ok 11 ∧
    _find_end_position_sequential exText
      (some ["FINDINGS".toList, "IMPRESSION".toList]) 0 true = Except.ok 25 ∧
    extract exG exText = Except.ok ("HISTORY: a".toList) ∧
    extract exS exText = Except.ok ("HISTORY: a\nIMPRESSION: b".toList) := by
  refine ⟨?_, by rfl, by rfl, by rfl, by rfl⟩
  intro t ks fromPos wb
  refine ⟨rfl, ?_⟩
  rcases hsg : seqGo wb (t.drop fromPos) ks with _ | i
  · refine ⟨t.length, by simp [_find_end_position_sequential, hsg], ?_, fun _ => rfl⟩
    intro pre k post hks hpre i0 hi0 hm0
    exfalso
    have hnone := seqGo_eq_none_iff.mp hsg k (by rw [hks]; simp)
    have h4 := reSearch_single_none_iff.mp hnone i0 hi0
    rw [hm0] at h4
    simp at h4
  · refine ⟨fromPos + i, by simp [_find_end_position_sequential, hsg], ?_, ?_⟩
    · intro pre k post hks hpre i0 hi0 hm0
      have hprenone : ∀ k2, k2 ∈ pre → reSearch wb [k2] (t.drop fromPos) = none := by
        intro k2 hk2
        exact reSearch_single_none_iff.mpr (fun i2 hi2 => hpre k2 hk2 i2 hi2)
      have h1 : seqGo wb (t.drop fromPos) ks = seqGo wb (t.drop fromPos) (k :: post) := by
        rw [hks]
        exact seqGo_append_of_none hprenone
      rcases hrk : reSearch wb [k] (t.drop fromPos) with _ | ⟨j, e⟩
      · exfalso
        have h4 := reSearch_single_none_iff.mp hrk i0 hi0
        rw [hm0] at h4
        simp at h4
      · rcases reSearch_single_some hrk with ⟨hj, _, hmk, hmink⟩
        have h2 : seqGo wb (t.drop fromPos) (k :: post) = some j := by
          simp [seqGo, hrk]
        rw [h1, h2] at hsg
        injection hsg with hij
        exact ⟨j, hmk, hmink, by rw [hij]⟩
    · intro hall
      exfalso
      have h5 : seqGo wb (t.drop fromPos) ks = none :=
        seqGo_eq_none_iff.mpr (fun k2 hk2 =>
          reSearch_single_none_iff.mpr (fun i2 hi2 => hall k2 hk2 i2 hi2))
      rw [h5] at hsg
      exact absurd hsg (by simp)

/-- Witness for claim C3's general part at the crafted text: `FINDINGS` is
listed first, does not match before offset 25, and decides the boundary. -/
theorem claim_C3_witness :
    ∃ r, _find_end_position_sequential exText
        (some ["FINDINGS".toList, "IMPRESSION".toList]) 0 true = Except.ok r ∧
      ∃ i, keyMatchAt true (exText.drop 0) ("FINDINGS".toList) i = true ∧
        (∀ j, j < i → keyMatchAt true (exText.drop 0) ("FINDINGS".toList) j = false) ∧
        r = 0 + i := by
  rcases (claim_C3.1 exText ["FINDINGS".toList, "IMPRESSION".toList] 0 true).2
    with ⟨r, hr, hmatch, _⟩
  exact ⟨r, hr, hmatch [] ("FINDINGS".toList) ["IMPRESSION".toList] rfl
    (by intro k2 hk2; simp at hk2) 25 (by decide) (by decide)⟩

/-- Claim C5 counterexample: with the start marker ` H:` (whose match begins
with a whitespace character) on `x H:ab`, excluding the marker yields `ab`,
but stripping the matched marker substring (length 3, span `(1, 4)`) from
the include-marker result `H:ab` and re-trimming yields `b` — the two sides
of the claimed identity differ. -/
theorem claim_C5_counterexample :
    _find_start_position tC5 exC5T.start_keys true = Except.ok ([], some (1, 4)) ∧
    extract exC5T tC5 = Except.ok ("H:ab".toList) ∧
    extract exC5F tC5 = Except.ok ("ab".toList) ∧
    Except.map (fun s => strip (s.drop (pySlice tC5 1 4).length)) (extract exC5T tC5)
      = Except.ok ("b".toList) ∧
    extract exC5F tC5
      ≠ Except.map (fun s => strip (s.drop (pySlice tC5 1 4).length))
          (extract exC5T tC5) := by
  have h1 : extract exC5F tC5 = Except.ok ("ab".toList) := rfl
  have h2 : Except.map (fun s => strip (s.drop (pySlice tC5 1 4).length))
      (extract exC5T tC5) = Except.ok ("b".toList) := rfl
  refine ⟨rfl, rfl, h1, h2, ?_⟩
  rw [h1, h2]
  intro h3
  injection h3 with h4
  exact absurd h4 (by decide)

/-- Claim C5 (amended): for two extractors differing only in
`include_start_keys`, whenever a start marker matches and the matched
start-marker substring does not begin with a whitespace character,
`extract` with the marker excluded equals `extract` with the marker
included after dropping the matched marker substring and re-trimming. -/
theorem claim_C5_amended (sk ek : Option (List (List Char))) (wbv : Bool) (ms : String)
    (t : List Char) (d : List Diag) (ss se : Nat)
    (h1 : _find_start_position t sk true = Except.ok (d, some (ss, se)))
    (hm : ∀ c, (pySlice t ss se).head? = some c → isSpaceChar c = false) :
    extract ⟨sk, ek, false, wbv, ms⟩ t
      = Except.map (fun s => strip (s.drop (pySlice t ss se).length))
          (extract ⟨sk, ek, true, wbv, ms⟩ t) := by
  rcases start_span_bounds h1 with ⟨hsse, hsel⟩
  have hmlen : (pySlice t ss se).length = se - ss := by
    rw [length_pySlice]
    omega
  rcases hre : resolveEnd ⟨sk, ek, true, wbv, ms⟩ t ss true with err | e
  · have hre2 : resolveEnd ⟨sk, ek, false, wbv, ms⟩ t ss true = Except.error err := hre
    simp [extract, h1, hre, hre2, Except.map]
  · have hre2 : resolveEnd ⟨sk, ek, false, wbv, ms⟩ t ss true = Except.ok e := hre
    have hL : extract ⟨sk, ek, false, wbv, ms⟩ t
        = Except.ok (strip (pySlice t se e)) := by
      simp [extract, h1, hre2]
    have hT : extract ⟨sk, ek, true, wbv, ms⟩ t
        = Except.ok (strip (pySlice t ss e)) := by
      simp [extract, h1, hre]
    rw [hL, hT]
    simp only [Except.map]
    congr 1
    by_cases hcase : se ≤ e
    · have hsplit : pySlice t ss e = pySlice t ss se ++ pySlice t se e :=
        pySlice_split hsse hcase (Nat.le_trans hsse hsel)
      rw [hsplit]
      exact (strip_drop_marker (pySlice t ss se) (pySlice t se e) hm).symm
    · have h6 : pySlice t se e = [] := pySlice_eq_nil_of_le (by omega)
      have h7 : (strip (pySlice t ss e)).length ≤ e - ss := by
        calc (strip (pySlice t ss e)).length
            ≤ (pySlice t ss e).length := length_strip_le _
          _ = min e t.length - ss := length_pySlice t ss e
          _ ≤ e - ss := by omega
      have h8 : (strip (pySlice t ss e)).drop (pySlice t ss se).length = [] := by
        apply List.drop_eq_nil_of_le
        rw [hmlen]
        omega
      rw [h6, h8]

/-- Witness for the amended claim C5: marker `H:` on `x H:ab` matches at span
`(2, 4)` with a non-whitespace head, and the identity holds. -/
theorem claim_C5_witness :
    _find_start_position tC5 (some ["H:".toList]) true = Except.ok ([], some (2, 4)) ∧
    (∀ c, (pySlice tC5 2 4).head? = some c → isSpaceChar c = false) ∧
    extract ⟨some ["H:".toList], none, false, false, "greedy"⟩ tC5
      = Except.map (fun s => strip (s.drop (pySlice tC5 2 4).length))
          (extract ⟨some ["H:".toList], none, true, false, "greedy"⟩ tC5) :=
  ⟨rfl, by decide,
   claim_C5_amended (some ["H:".toList]) none false "greedy" tC5 [] 2 4 rfl (by decide)⟩
